import Mathlib

/-!
Shallow embedding of the remark-github-style reference plugin
(`src/unnamed/part_000`) and proofs about its specification.

The source is a unified/remark plugin that
1. scans text for `user[/project]#N`, `user[/project]@hash` and `@user`
   tokens and replaces accepted spans with link nodes (the Text Scanner,
   `findAndReplace` with `referenceRegex` then `mentionRegex`, ignoring
   `link`/`linkReference` subtrees), and
2. visits existing link nodes, parses their URL against `linkRegex` and,
   for bare autolinks that validate, replaces the display children with a
   compact form (the Existing-Link Normalizer).

JavaScript strings are modelled as Lean `String`/`List Char`; `undefined`
values of capture groups and options as `Option`; functions that return
`false` to signal "no replacement" return `Option` `none`.  The regular
expressions of the source are compiled by hand into deterministic
matching functions; comments at each definition record the regex it
embeds and why the translation captures the (backtracking) semantics.
-/

/-- mdast inline/block content relevant to the plugin: nodes carrying a
scalar value (`text`, `inlineCode`), nodes carrying children (`strong`,
`link`), and all other node kinds, kept opaque except for their type tag
and children (`other`).  A `link` carries `url` and `title`. -/
inductive Node where
  | text (value : String)
  | inlineCode (value : String)
  | strong (children : List Node)
  | link (url : String) (title : Option String) (children : List Node)
  | other (kind : String) (children : List Node)
deriving Repr

/-- `BuildUrlValues` of the source: the tagged union passed to URL
builders.  `project` is `Option String` because the reference pattern's
project group is optional (`specificProject` may be `undefined`). -/
inductive BuildUrlValues where
  | mention (user : String)
  | commit (user : String) (project : Option String) (hash : String)
  | issue (user : String) (project : Option String) (no : String)
  | compare (user : String) (project : Option String) (base : String) (compareTo : String)
deriving Repr, BEq, DecidableEq

/-- `Array.prototype.join("/")`: `undefined`/`null` entries become the
empty string (handled at call sites via `Option.getD ""`). -/
def joinSlash : List String → String
  | [] => ""
  | [s] => s
  | s :: rest => s ++ "/" ++ joinSlash rest

/-- `defaultBuildUrl` of the source: pure string construction over the
four value tags, joining with `/` exactly as `[...].join("/")` does. -/
def defaultBuildUrl : BuildUrlValues → String
  | .mention user => joinSlash ["https://github.com", user]
  | .commit user project hash =>
      joinSlash ["https://github.com", user, project.getD "", "commit", hash]
  | .issue user project no =>
      joinSlash ["https://github.com", user, project.getD "", "issues", no]
  | .compare user project base compareTo =>
      joinSlash ["https://github.com", user, project.getD "", "compare",
        base ++ "..." ++ compareTo]

/-- Plugin configuration (`Options` of the source).  All fields are
optional in JS; a user `buildUrl` hook receives the values and the
default builder and returns a string or `false` (modelled `none`). -/
structure Options where
  repository : Option String := none
  mentionStrong : Option Bool := none
  buildUrl : Option (BuildUrlValues → (BuildUrlValues → String) → Option String) := none

/-- `buildUrl` closure of the plugin: use the configured hook if present
(JS truthiness of a function value), otherwise the default builder. -/
def buildUrl (opts : Options) (values : BuildUrlValues) : Option String :=
  match opts.buildUrl with
  | some f => f values defaultBuildUrl
  | none => some (defaultBuildUrl values)

/-- `abbr` of the source: `sha.slice(0, minShaLength)` with
`minShaLength = 7`. -/
def abbr (sha : String) : String := ⟨sha.data.take 7⟩

/-- The reserved denylist: `new Set(["mention", "mentions"])`. -/
def denyMention : List String := ["mention", "mentions"]

/-- JS `String.prototype.charAt`: the single-character string at index
`i`, or the empty string when `i` is out of range (including `-1`). -/
def charAt (s : String) (i : Int) : String :=
  if i < 0 then ""
  else
    match s.data.get? i.toNat with
    | some c => ⟨[c]⟩
    | none => ""

/-- `RegExp.prototype.test` of a single-character class against a
string: true iff some character of the string is in the class. -/
def reTest (p : Char → Bool) (s : String) : Bool := s.data.any p

/-- JS `\d`: ASCII digit. -/
def isDigitC (c : Char) : Bool := 48 ≤ c.toNat && c.toNat ≤ 57

/-- ASCII letter (both cases, as the case-insensitive `[a-z]` of the
source patterns, which all carry the `i` flag). -/
def isAlphaC (c : Char) : Bool :=
  (65 ≤ c.toNat && c.toNat ≤ 90) || (97 ≤ c.toNat && c.toNat ≤ 122)

/-- JS `\w`: `[A-Za-z0-9_]`. -/
def isWordChar (c : Char) : Bool := isDigitC c || isAlphaC c || c.toNat = 95

/-- First character of `userGroup` (`[\da-z]` with the `i` flag). -/
def isUserStart (c : Char) : Bool := isDigitC c || isAlphaC c

/-- Continuation characters of `userGroup` (`[-\da-z]` with `i`). -/
def isUserChar (c : Char) : Bool := isUserStart c || c.toNat = 45

/-- `[a-f\d]` with the `i` flag (hexadecimal digit, either case). -/
def isHexCI (c : Char) : Bool :=
  isDigitC c || (97 ≤ c.toNat && c.toNat ≤ 102) || (65 ≤ c.toNat && c.toNat ≤ 70)

/-- `[a-f\d]` without flags (the compare-payload validation regex is
case sensitive). -/
def isHexLower (c : Char) : Bool :=
  isDigitC c || (97 ≤ c.toNat && c.toNat ≤ 102)

/-- `/[a-f]/i`: a hexadecimal letter in either case. -/
def isHexLetterCI (c : Char) : Bool :=
  (97 ≤ c.toNat && c.toNat ≤ 102) || (65 ≤ c.toNat && c.toNat ≤ 70)

/-- Class of the mention validator's preceding-character test:
`[\w` ++ "`" ++ `]` (word character or backtick, 96). -/
def isMentionBeforeBad (c : Char) : Bool := isWordChar c || c.toNat = 96

/-- Class of the mention validator's following-character test:
`[/\w` ++ "`" ++ `]` (slash 47, word character, or backtick 96). -/
def isMentionAfterBad (c : Char) : Bool :=
  c.toNat = 47 || isWordChar c || c.toNat = 96

/-- Negated class `[^\t\n\r (@[{]` of the reference validator's
preceding-character test: any character other than tab 9, newline 10,
carriage return 13, space 32, `(` 40, `@` 64, `[` 91, `{` 123. -/
def isRefBeforeBad (c : Char) : Bool :=
  !(c.toNat = 9 || c.toNat = 10 || c.toNat = 13 || c.toNat = 32 ||
    c.toNat = 40 || c.toNat = 64 || c.toNat = 91 || c.toNat = 123)

/-- The `{input, index}` match context handed to replace functions. -/
structure RMatch where
  input : String
  index : Nat
deriving Repr, DecidableEq

/-- JS string truthiness for an optional capture: `undefined` and the
empty string are falsy. -/
def strTruthy : Option String → Bool
  | none => false
  | some s => s ≠ ""

/-- `replaceMention(value, username, match)` of the source: reject when
the character before the match is a word character or backtick, the
character after it is a slash, word character or backtick, or the user
name is denylisted; otherwise consult the URL builder (`false` or the
empty string suppress linking) and produce the link node, wrapping the
matched text in `strong` unless `mentionStrong` is explicitly `false`. -/
def replaceMention (opts : Options) (value username : String) (ctx : RMatch) :
    Option Node :=
  if reTest isMentionBeforeBad (charAt ctx.input ((ctx.index : Int) - 1))
      || reTest isMentionAfterBad (charAt ctx.input ((ctx.index : Int) + value.length))
      || denyMention.contains username then
    none
  else
    match buildUrl opts (.mention username) with
    | none => none
    | some url =>
      if url = "" then none
      else
        let node : Node := .text value
        let node := if opts.mentionStrong ≠ some false then Node.strong [node] else node
        some (.link url none [node])

/-- `replaceReference($0, user, specificProject, no, hash, match)` of
the source.  `no` and `hash` are the optional captures of
`(?:#([1-9]\d*)|@([a-f\d]{7,40}))`; the scanner always supplies exactly
one of them, so the `getD ""` defaults on the branch not selected by
the JS truthiness test are unreachable. -/
def replaceReference (opts : Options) (m0 user : String)
    (specificProject no hash : Option String) (ctx : RMatch) : Option Node :=
  if reTest isRefBeforeBad (charAt ctx.input ((ctx.index : Int) - 1))
      || reTest isWordChar (charAt ctx.input ((ctx.index : Int) + m0.length)) then
    none
  else
    let project := specificProject
    let url :=
      if strTruthy no then buildUrl opts (.issue user project (no.getD ""))
      else buildUrl opts (.commit user project (hash.getD ""))
    match url with
    | none => none
    | some u =>
      if u = "" then none
      else
        let nodes : List Node :=
          if strTruthy no then [] else [Node.inlineCode (abbr (hash.getD ""))]
        let value := if strTruthy no then "#" ++ no.getD "" else "@"
        some (.link u none (Node.text value :: nodes))

/-- Case-insensitive match of a lowercase literal pattern against the
head of the input (the `i` flag on `linkRegex`): a character matches a
pattern character `p` when it is `p` itself or, for a lowercase-letter
`p`, its ASCII uppercase variant.  Returns the consumed original
characters and the rest. -/
def matchCI : List Char → List Char → Option (List Char × List Char)
  | [], s => some ([], s)
  | _ :: _, [] => none
  | p :: ps, c :: cs =>
    if c = p || (65 ≤ c.toNat && c.toNat ≤ 90 && c.toNat + 32 = p.toNat) then
      (matchCI ps cs).map (fun r => (c :: r.1, r.2))
    else none

/-- One greedy pass of `projectGroup = (?:\.git[\w-]|\.(?!git)|[\w-])+`
over the input, returning the consumed run and the rest.  The
tokenisation is deterministic: at a `.` followed by `git` (any case,
`i` flag) the lookahead `(?!git)` fails, so only `\.git[\w-]` can
apply, and it needs a word/hyphen character after `git`; at any other
`.` only `\.(?!git)` applies; a word/hyphen character is consumed by
the last branch; any other character ends the run.  No shorter run can
satisfy the regex continuation `\/`, because every earlier stopping
point leaves a word/hyphen/dot character, never a slash.  The fuel
argument (any value above the input length) only bounds the recursion;
every step consumes at least one character. -/
def projectRunAux : Nat → List Char → List Char × List Char
  | 0, l => ([], l)
  | _ + 1, [] => ([], [])
  | fuel + 1, c :: rest =>
    if isWordChar c || c.toNat = 45 then
      let r := projectRunAux fuel rest
      (c :: r.1, r.2)
    else if c.toNat = 46 then
      match rest with
      | g :: i2 :: t :: rest2 =>
        if (g = 'g' || g = 'G') && (i2 = 'i' || i2 = 'I') && (t = 't' || t = 'T') then
          match rest2 with
          | w :: rest3 =>
            if isWordChar w || w.toNat = 45 then
              let r := projectRunAux fuel rest3
              (c :: g :: i2 :: t :: w :: r.1, r.2)
            else ([], c :: rest)
          | [] => ([], c :: rest)
        else
          let r := projectRunAux fuel rest
          (c :: r.1, r.2)
      | _ =>
        let r := projectRunAux fuel rest
        (c :: r.1, r.2)
    else ([], c :: rest)

/-- See `projectRunAux`; the fuel `length + 1` never runs out. -/
def projectRun (l : List Char) : List Char × List Char :=
  projectRunAux (l.length + 1) l

/-- The lookahead `(?=[#?]|$)` terminating the payload of `linkRegex`. -/
def boundaryOk : List Char → Bool
  | [] => true
  | c :: _ => c.toNat = 35 || c.toNat = 63

/-- The `\/?(?=[#?]|$)` tail of the payload: the optional slash is
inside capture group 4, so it is appended to the captured payload.  The
greedy slash is forced: when a slash is present but the lookahead after
it fails, backtracking to the slash-less alternative also fails because
the lookahead then sees the slash itself. -/
def payloadTail (acc : List Char) : List Char → Option (List Char × List Char)
  | '/' :: r => if boundaryOk r then some (acc ++ ['/'], r) else none
  | r => if boundaryOk r then some (acc, r) else none

/-- Group 4 of `linkRegex`:
`([a-f\d]+(?:\.{3}[a-f\d]+)?\/?(?=[#?]|$))`.  Both hexadecimal runs are
greedy and cannot profitably shrink (a shorter run leaves a hexadecimal
character where a dot, slash or boundary is required), so the only
backtracking left is skipping the optional `\.{3}[a-f\d]+` group when
its continuation fails, which is kept verbatim. -/
def payloadMatch (l : List Char) : Option (List Char × List Char) :=
  let h1 := l.takeWhile isHexCI
  if h1.isEmpty then none
  else
    let r1 := l.drop h1.length
    match r1 with
    | '.' :: '.' :: '.' :: r2 =>
      let h2 := r2.takeWhile isHexCI
      if h2.isEmpty then payloadTail h1 r1
      else
        match payloadTail (h1 ++ '.' :: '.' :: '.' :: h2) (r2.drop h2.length) with
        | some res => some res
        | none => payloadTail h1 r1
    | _ => payloadTail h1 r1

/-- The alternation `(commit|compare|issues|pull)` (case-insensitive,
capturing the original spelling).  At most one branch can match a given
input, since no branch is a prefix of another, so the ordered trial is
the full regex semantics. -/
def pageAlt (l : List Char) : Option (List Char × List Char) :=
  match matchCI "commit".data l with
  | some r => some r
  | none =>
    match matchCI "compare".data l with
    | some r => some r
    | none =>
      match matchCI "issues".data l with
      | some r => some r
      | none => matchCI "pull".data l

/-- The captures of a successful `linkRegex.exec(url)`:
`user = match[1]`, `project = match[2]`, `page = match[3]` (original
casing), `reference = match[4]` (payload, possibly ending in `/`), and
`rest`, the input after `match[0]` (used for the comment-anchor test). -/
structure LinkMatchR where
  user : String
  project : String
  page : String
  reference : String
  rest : String
deriving Repr, DecidableEq

/-- The first capture of the `linkRegex` body, `(user)\/`: the user run
(`[\da-z][-\da-z]{0,38}` with `i`) is greedy; a run longer than 39
characters fails outright, since every shorter stopping point leaves a
class character where the mandatory `\/` is required (the class
excludes the slash). -/
def userScan (r1 : List Char) : Option (List Char × List Char) :=
  match r1 with
  | [] => none
  | c :: _ =>
    if !isUserStart c then none
    else
      let user := r1.takeWhile isUserChar
      if user.length > 39 then none
      else
        match r1.drop user.length with
        | '/' :: r3 => some (user, r3)
        | _ => none

/-- `(projectGroup)\/`: the greedy project run followed by the
mandatory slash (`projectRun` explains determinism). -/
def projectScan (r3 : List Char) : Option (List Char × List Char) :=
  let pr := projectRun r3
  if pr.1.isEmpty then none
  else
    match pr.2 with
    | '/' :: r5 => some (pr.1, r5)
    | _ => none

/-- `(commit|compare|issues|pull)\/`: the page alternation followed by
the mandatory slash. -/
def pageScan (r5 : List Char) : Option (List Char × List Char) :=
  match pageAlt r5 with
  | some (page, '/' :: r7) => some (page, r7)
  | _ => none

/-- Body continued: chain the four capture groups. -/
def execLinkBody (r1 : List Char) : Option LinkMatchR :=
  match userScan r1 with
  | none => none
  | some (user, r3) =>
    match projectScan r3 with
    | none => none
    | some (project, r5) =>
      match pageScan r5 with
      | none => none
      | some (page, r7) =>
        match payloadMatch r7 with
        | none => none
        | some pm => some ⟨⟨user⟩, ⟨project⟩, ⟨page⟩, ⟨pm.1⟩, ⟨pm.2⟩⟩

/-- `linkRegex.exec(url)`:
`^https?:\/\/github\.com\/` followed by `execLinkBody`, with the `i`
flag.  The alternatives of `https?` are distinguished by the character
after `http`, so trying the `https` variant first is the full
backtracking semantics. -/
def execLinkRegex (url : List Char) : Option LinkMatchR :=
  match matchCI "https://github.com/".data url with
  | some r => execLinkBody r.2
  | none =>
    match matchCI "http://github.com/".data url with
    | some r => execLinkBody r.2
    | none => none

/-- First occurrence of `sep` in `l`: the part before it and the part
after it. -/
def findSep (sep : List Char) : List Char → Option (List Char × List Char)
  | [] => if sep.isEmpty then some ([], []) else none
  | c :: rest =>
    if sep.isPrefixOf (c :: rest) then some ([], (c :: rest).drop sep.length)
    else (findSep sep rest).map (fun r => (c :: r.1, r.2))

/-- JS `String.prototype.split` with a nonempty separator: leftmost,
non-overlapping.  Fuel-bounded (`length + 1` steps suffice: each
separator occurrence consumes at least one character). -/
def jsSplitAux (sep : List Char) : Nat → List Char → List (List Char)
  | 0, l => [l]
  | fuel + 1, l =>
    match findSep sep l with
    | none => [l]
    | some (a, b) => a :: jsSplitAux sep fuel b

/-- JS `reference.split("...")` and friends. -/
def jsSplit (sep s : String) : List String :=
  (jsSplitAux sep.data (s.data.length + 1) s.data).map (⟨·⟩)

/-- The abbreviation step at the end of `parse` (source lines 308–315):
for a `compare` page the payload is split on `"..."` and the two halves
abbreviated independently; otherwise the payload is abbreviated as a
whole.  The `getD ""` defaults are unreachable: the branch is guarded
by the compare-payload validation, which guarantees exactly one
`"..."`. -/
def abbrReference (page reference : String) : String :=
  if page = "compare" then
    let parts := jsSplit "..." reference
    abbr (parts.headD "") ++ "..." ++ abbr (parts.getD 1 "")
  else abbr reference

/-- `/^[a-f\d]{4,40}\.{3}[a-f\d]{4,40}$/.test(...)` (no `i` flag): two
case-sensitive hexadecimal runs of length 4–40 joined by exactly three
dots.  Greedy runs cannot shrink usefully (hexadecimal characters are
never dots and the tail must reach the end of the string), so maximal
runs decide the match. -/
def compareOk (s : String) : Bool :=
  let a := s.data.takeWhile isHexLower
  (4 ≤ a.length && a.length ≤ 40) &&
    match s.data.drop a.length with
    | '.' :: '.' :: '.' :: b =>
      b.all isHexLower && 4 ≤ b.length && b.length ≤ 40
    | _ => false

mutual
/-- `mdast-util-to-string`: nodes with a value yield it, nodes with
children concatenate their children's strings. -/
def mdToString : Node → String
  | .text v => v
  | .inlineCode v => v
  | .strong ch => mdToStringList ch
  | .link _ _ ch => mdToStringList ch
  | .other _ ch => mdToStringList ch

/-- `children.map(toString).join("")`. -/
def mdToStringList : List Node → String
  | [] => ""
  | n :: ns => mdToString n ++ mdToStringList ns
end

/-- Output of `parse(node)` of the source: the captures plus the
already-abbreviated `reference` and the comment-anchor flag. -/
structure ParsedLink where
  user : String
  project : String
  page : String
  reference : String
  comment : Bool
deriving Repr, DecidableEq

/-- `parse(node)` of the source.  Runs `linkRegex` over the link's URL
and rejects when the node is not a bare autolink (exactly one child, a
text node, whose concatenated string equals the URL) or a validation
fails: `match[3] === "commit"` with payload length outside 4–40,
`match[3] === "compare"` with a payload failing the two-hex-runs test,
`match[3] === "issues"`/`"pull"` with a hexadecimal letter in the
payload, or a project of 100 or more characters.  The page comparisons
are case sensitive although `linkRegex` matched case-insensitively.
The comment flag is `url.charAt(match[0].length) === "#"` with at least
one further character.  Non-link nodes have `node.url` undefined, so
the regex fails on the empty string; this is folded into the catch-all
branch. -/
def parse (node : Node) : Option ParsedLink :=
  match node with
  | .link url _ children =>
    match execLinkRegex url.data with
    | none => none
    | some m =>
      let headIsText : Bool :=
        match children.head? with
        | some (.text _) => true
        | _ => false
      if children.length != 1 || !headIsText || mdToString node != url
          || (m.page == "commit" && (m.reference.length < 4 || m.reference.length > 40))
          || (m.page == "compare" && !compareOk m.reference)
          || ((m.page == "issues" || m.page == "pull") && m.reference.data.any isHexLetterCI)
          || decide (m.project.length ≥ 100) then
        none
      else
        some
          { user := m.user, project := m.project, page := m.page,
            reference := abbrReference m.page m.reference,
            comment := m.rest.data.head? == some '#' && decide (2 ≤ m.rest.length) }
  | _ => none

/-- The children built by the link visitor (source lines 129–155): for
`issues`/`pull` pages a single text node
`user ++ "#" ++ reference ++ comment`; otherwise a `user ++ "@"` text
node (the user capture is never empty, but the source's `if (base)`
test is kept), an inline-code node with the abbreviated reference, and
the optional comment text node. -/
def linkChildren (link : ParsedLink) : List Node :=
  let comment := if link.comment then " (comment)" else ""
  let base := link.user
  if link.page == "issues" || link.page == "pull" then
    [Node.text (base ++ "#" ++ link.reference ++ comment)]
  else
    (if base != "" then [Node.text (base ++ "@")] else []) ++
      [Node.inlineCode link.reference] ++
      (if link.comment then [Node.text comment] else [])

/-- The body of the `visit(tree, "link", ...)` callback: parse the
link; on failure leave the node untouched, on success replace its
children.  Total — every rejection is a plain "leave it alone", no
exception path exists. -/
def visitLink (node : Node) : Node :=
  match parse node with
  | none => node
  | some l =>
    match node with
    | .link url title _ => .link url title (linkChildren l)
    | n => n

mutual
/-- The Existing-Link Normalizer pass: `visit(tree, "link", cb)` in
preorder, where the callback replaces the children of links that parse.
Replacement children are value leaves (text/inline-code), which the
traversal of the mutated tree then passes through unchanged, so the
recursion descends into original children only. -/
def normalizeTree : Node → Node
  | .text v => .text v
  | .inlineCode v => .inlineCode v
  | .strong ch => .strong (normalizeList ch)
  | .other k ch => .other k (normalizeList ch)
  | .link url title ch =>
    match parse (.link url title ch) with
    | none => .link url title (normalizeList ch)
    | some l => .link url title (linkChildren l)

/-- Normalize a list of siblings in order. -/
def normalizeList : List Node → List Node
  | [] => []
  | n :: ns => normalizeTree n :: normalizeList ns
end

/-- The character relation of case-insensitive literal matching: the
consumed character is the pattern character or its ASCII uppercase. -/
def ciRel (c p : Char) : Prop :=
  c = p ∨ (65 ≤ c.toNat ∧ c.toNat ≤ 90 ∧ c.toNat + 32 = p.toNat)

/-- The alternation tail of `referenceRegex`:
`(?:#([1-9]\d*)|@([a-f\d]{7,40}))`.  Returns the consumed characters
and the `no`/`hash` captures.  The two branches are distinguished by
the first character; the digit run is greedy with nothing after it, and
the hexadecimal run is greedy, capped at 40, needing at least 7 — a
shorter hexadecimal run never helps since nothing follows the group. -/
def refTailScan : List Char → Option (List Char × Option (List Char) × Option (List Char))
  | '#' :: r =>
    (match r with
     | c :: _ =>
       if 49 ≤ c.toNat && c.toNat ≤ 57 then
         let ds := r.takeWhile isDigitC
         some ('#' :: ds, some ds, none)
       else none
     | [] => none)
  | '@' :: r =>
    let hx := r.takeWhile isHexCI
    if hx.length < 7 then none
    else some ('@' :: hx.take 40, none, some (hx.take 40))
  | _ => none

/-- The captures of one `referenceRegex` match:
`match[0]`, `user`, optional `project`, optional `no`, optional
`hash`. -/
structure RefMatch where
  m0 : List Char
  user : List Char
  project : Option (List Char)
  no : Option (List Char)
  hash : Option (List Char)
deriving Repr

/-- One attempt of `referenceRegex` at the start of `l`:
`(user)(?:\/(project))?(?:#no|@hash)`.  The greedy user run cannot
shrink (a shorter run leaves a class character where `/`, `#` or `@` is
required), a run above 39 characters therefore fails at this offset;
when the optional `\/(project)` group is present but the tail fails,
the regex backtracks to skipping the group, which then always fails
because the tail would start at the slash. -/
def refAttempt (l : List Char) : Option RefMatch :=
  match l with
  | [] => none
  | c :: _ =>
    if !isUserStart c then none
    else
      let user := l.takeWhile isUserChar
      if user.length > 39 then none
      else
        match l.drop user.length with
        | '/' :: r3 =>
          let pr := projectRun r3
          if pr.1.isEmpty then none
          else
            match refTailScan pr.2 with
            | some (t, no, hash) =>
              some ⟨user ++ '/' :: pr.1 ++ t, user, some pr.1, no, hash⟩
            | none => none
        | r2 =>
          match refTailScan r2 with
          | some (t, no, hash) => some ⟨user ++ t, user, none, no, hash⟩
          | none => none

/-- The captures of one `mentionRegex` match. -/
structure MenMatch where
  m0 : List Char
  username : List Char
deriving Repr

/-- The capture `(user(?:\/user)?)` of `mentionRegex`.  Nothing follows
the group in the regex, so the greedy runs simply cap at 39 characters
and the optional `\/user` part applies whenever a slash and a fresh
user start follow. -/
def menUserScan (r : List Char) : Option (List Char) :=
  match r with
  | [] => none
  | c :: _ =>
    if !isUserStart c then none
    else
      let u1 := (r.takeWhile isUserChar).take 39
      match r.drop u1.length with
      | '/' :: r3 =>
        (match r3 with
         | d :: _ =>
           if isUserStart d then some (u1 ++ '/' :: (r3.takeWhile isUserChar).take 39)
           else some u1
         | [] => some u1)
      | _ => some u1

/-- One attempt of `mentionRegex` at the start of `l`:
`@(user(?:\/user)?)`. -/
def menAttempt (l : List Char) : Option MenMatch :=
  match l with
  | '@' :: r => (menUserScan r).map (fun u => ⟨'@' :: u, u⟩)
  | _ => none

/-- The exec loop of a global JS regex: at each position try a match;
on success record it and continue at its end (`lastIndex`), otherwise
advance one character.  Fuel-bounded (`length + 1` suffices: every step
consumes at least one character, matches being nonempty). -/
def scanAllAux {M : Type} (attempt : List Char → Option M) (mlen : M → Nat) :
    Nat → Nat → List Char → List (Nat × M)
  | 0, _, _ => []
  | _ + 1, _, [] => []
  | fuel + 1, i, c :: rest =>
    match attempt (c :: rest) with
    | some m => (i, m) :: scanAllAux attempt mlen fuel (i + mlen m) ((c :: rest).drop (mlen m))
    | none => scanAllAux attempt mlen fuel (i + 1) rest

/-- All matches of a global regex over `l`, leftmost, non-overlapping. -/
def scanAll {M : Type} (attempt : List Char → Option M) (mlen : M → Nat)
    (l : List Char) : List (Nat × M) :=
  scanAllAux attempt mlen (l.length + 1) 0 l

/-- The accumulation loop of the find-and-replace handler: for each
match, ask the replace function; `false` (= `none`) keeps the span
inside the running text (start does not advance); a returned node first
flushes the pending text slice (`if (start !== position)`), then the
node, and start jumps to the match end.  Returns the nodes so far and
the final start offset. -/
def buildSegments {M : Type} (mlen : M → Nat) (repl : Nat → M → Option Node)
    (v : List Char) : List (Nat × M) → Nat → List Node × Nat
  | [], start => ([], start)
  | (i, m) :: rest, start =>
    match repl i m with
    | none => buildSegments mlen repl v rest start
    | some nd =>
      let r := buildSegments mlen repl v rest (i + mlen m)
      ((if start ≠ i then [Node.text ⟨(v.drop start).take (i - start)⟩] else []) ++
        nd :: r.1, r.2)

/-- The whole handler for one text node: when no match was replaced the
node is left alone (kept as the same single text node); otherwise the
segments plus the trailing text slice, spliced in place of the node. -/
def handleText {M : Type} (attempt : List Char → Option M) (mlen : M → Nat)
    (repl : Nat → M → Option Node) (v : List Char) : List Node :=
  let r := buildSegments mlen repl v (scanAll attempt mlen v) 0
  if r.1.isEmpty then [Node.text ⟨v⟩]
  else r.1 ++ (if r.2 < v.length then [Node.text ⟨v.drop r.2⟩] else [])

/-- Feed one `referenceRegex` match to `replaceReference` (the spread
`replace(...match, {index, input})` of the library). -/
def refReplace (opts : Options) (input : String) (i : Nat) (m : RefMatch) : Option Node :=
  replaceReference opts ⟨m.m0⟩ ⟨m.user⟩ (m.project.map (⟨·⟩)) (m.no.map (⟨·⟩))
    (m.hash.map (⟨·⟩)) ⟨input, i⟩

/-- Feed one `mentionRegex` match to `replaceMention`. -/
def menReplace (opts : Options) (input : String) (i : Nat) (m : MenMatch) : Option Node :=
  replaceMention opts ⟨m.m0⟩ ⟨m.username⟩ ⟨input, i⟩

/-- The reference pair's effect on one text value. -/
def refHandle (opts : Options) (v : List Char) : List Node :=
  handleText refAttempt (fun m => m.m0.length) (refReplace opts ⟨v⟩) v

/-- The mention pair's effect on one text value. -/
def menHandle (opts : Options) (v : List Char) : List Node :=
  handleText menAttempt (fun m => m.m0.length) (menReplace opts ⟨v⟩) v

mutual
/-- `visitParents(tree, "text", visitor)` of one find-and-replace pair,
node view: the sibling nodes a node is replaced by in its parent's
children list.  A text node is spliced into its handler output;
`link`/`linkReference` subtrees are ignored (their descendants are not
visited); other containers recurse; the nodes a handler inserts are not
revisited by the same pair. -/
def scanNode (f : List Char → List Node) : Node → List Node
  | .text v => f v.data
  | .inlineCode v => [.inlineCode v]
  | .strong ch => [.strong (scanChildren f ch)]
  | .link u t ch => [.link u t ch]
  | .other k ch =>
    [if k = "linkReference" then Node.other k ch else .other k (scanChildren f ch)]

/-- Splice each child's replacement nodes in place. -/
def scanChildren (f : List Char → List Node) : List Node → List Node
  | [] => []
  | n :: rest => scanNode f n ++ scanChildren f rest
end

/-- One find-and-replace pair as a whole-tree pass.  A text root has no
parent to splice into, so it is left alone, as the library does. -/
def scanPass (f : List Char → List Node) : Node → Node
  | .text v => .text v
  | .inlineCode v => .inlineCode v
  | .strong ch => .strong (scanChildren f ch)
  | .link u t ch => .link u t ch
  | .other k ch =>
    if k = "linkReference" then .other k ch else .other k (scanChildren f ch)

/-- The Text Scanner: `findAndReplace(tree, [[referenceRegex,
replaceReference], [mentionRegex, replaceMention]], {ignore: ["link",
"linkReference"]})` — the library runs one full tree visit per pair, in
order. -/
def scanTree (opts : Options) (tree : Node) : Node :=
  scanPass (menHandle opts) (scanPass (refHandle opts) tree)

/-- The transformer returned by the plugin: the Text Scanner
(`findAndReplace`) followed by the Existing-Link Normalizer
(`visit(tree, "link", ...)`). -/
def transform (opts : Options) (tree : Node) : Node :=
  normalizeTree (scanTree opts tree)

/-- C1 (confirmed): hash abbreviation law.  For every commit hash
string, the abbreviated display `abbr` is exactly the prefix of
`min(7, len(hash))` characters of the original: length ≥ 7 gives
exactly the first 7 characters, length < 7 gives the whole hash; and on
the compare path both halves of the payload are abbreviated
independently under the same rule and rejoined with `"..."`. -/
theorem c1_abbreviation_law (hash : String) :
    (abbr hash).data = hash.data.take (min 7 hash.data.length)
  ∧ (7 ≤ hash.length → (abbr hash).length = 7)
  ∧ (hash.length < 7 → abbr hash = hash)
  ∧ (∀ payload b c : String, jsSplit "..." payload = [b, c] →
      abbrReference "compare" payload = abbr b ++ "..." ++ abbr c) := by
  refine ⟨?_, ?_, ?_, ?_⟩
  · show hash.data.take 7 = _
    rcases le_or_lt 7 hash.data.length with h | h
    · rw [min_eq_left h]
    · rw [min_eq_right (le_of_lt h), List.take_length,
        List.take_of_length_le (le_of_lt h)]
  · intro h
    show (hash.data.take 7).length = 7
    rw [List.length_take]
    exact min_eq_left h
  · intro h
    show (⟨hash.data.take 7⟩ : String) = hash
    rw [List.take_of_length_le (le_of_lt h)]
  · intro payload b c h
    unfold abbrReference
    rw [if_pos rfl, h]
    rfl

/-- C5 (confirmed): denylist law.  A mention whose captured user name
is `"mention"` or `"mentions"` is never turned into a link, for every
configuration including any user-supplied `buildUrl` override: the
denylist test sits in the same rejection disjunction that runs before
the URL builder is consulted, so the result is `none` (text left
unchanged) regardless of the builder. -/
theorem c5_denylist (opts : Options) (value username : String) (ctx : RMatch)
    (h : username = "mention" ∨ username = "mentions") :
    replaceMention opts value username ctx = none := by
  have hc : denyMention.contains username = true := by
    rcases h with h | h <;> subst h <;> decide
  unfold replaceMention
  rw [hc]
  simp

theorem c5_witness :
    replaceMention ⟨none, none, some fun _ _ => some "https://example.com/x"⟩
      "@mention" "mention" ⟨"@mention", 0⟩ = none :=
  c5_denylist _ _ _ _ (Or.inl rfl)

/-- C2 (confirmed): in-text rewrite display shape.  Whenever
`replaceReference` produces a link node (so the URL builder returned a
usable string), its title is null and its children display only
`"#" ++ number` (one text node) when an issue number was captured, or a
`"@"` text node followed by a separate inline-code node carrying the
abbreviated hash otherwise — the children are exactly these nodes, so
the matched user/project text is never repeated in the display. -/
theorem c2_reference_display (opts : Options) (m0 user : String)
    (specificProject no hash : Option String) (ctx : RMatch)
    (u : String) (tt : Option String) (ch : List Node)
    (h : replaceReference opts m0 user specificProject no hash ctx
      = some (.link u tt ch)) :
    tt = none
  ∧ (strTruthy no = true → ch = [Node.text ("#" ++ no.getD "")])
  ∧ (strTruthy no = false → ch = [Node.text "@", Node.inlineCode (abbr (hash.getD ""))]) := by
  unfold replaceReference at h
  split at h
  · exact absurd h (by simp)
  · rcases hno : strTruthy no with _ | _ <;>
      simp only [hno, Bool.false_eq_true, if_true, if_false] at h
    · cases hurl : buildUrl opts (.commit user specificProject (hash.getD "")) with
      | none => rw [hurl] at h; exact absurd h (by simp)
      | some u2 =>
        rw [hurl] at h
        dsimp only [] at h
        by_cases he : u2 = ""
        · rw [if_pos he] at h; exact absurd h (by simp)
        · rw [if_neg he] at h
          simp only [Option.some.injEq, Node.link.injEq] at h
          obtain ⟨rfl, h2, h3⟩ := h
          exact ⟨h2.symm, fun hc => absurd hc (by simp [hno]), fun _ => h3.symm⟩
    · cases hurl : buildUrl opts (.issue user specificProject (no.getD "")) with
      | none => rw [hurl] at h; exact absurd h (by simp)
      | some u2 =>
        rw [hurl] at h
        dsimp only [] at h
        by_cases he : u2 = ""
        · rw [if_pos he] at h; exact absurd h (by simp)
        · rw [if_neg he] at h
          simp only [Option.some.injEq, Node.link.injEq] at h
          obtain ⟨rfl, h2, h3⟩ := h
          exact ⟨h2.symm, fun _ => h3.symm, fun hc => absurd hc (by simp [hno])⟩

theorem c2_witness :
    (none : Option String) = none
  ∧ (strTruthy (some "1") = true →
      [Node.text "#1"] = [Node.text ("#" ++ (some "1" : Option String).getD "")])
  ∧ (strTruthy (some "1") = false →
      [Node.text "#1"] = [Node.text "@", Node.inlineCode (abbr ((none : Option String).getD ""))]) :=
  c2_reference_display {} "wooorm#1" "wooorm" none (some "1") none ⟨"wooorm#1", 0⟩
    "https://github.com/wooorm//issues/1" none [Node.text "#1"] (by rfl)

/-- C6 (confirmed): mention boundary law.  A candidate mention match is
rejected whenever the character immediately preceding it is a word
character or backtick, or the character immediately following it is a
word character, slash, or backtick; and the validator consults only
these single adjacent characters — two match contexts with the same two
adjacent characters produce the same result. -/
theorem c6_mention_boundary (opts : Options) (value username input : String) (i : Nat) :
    (∀ c : Char, i ≠ 0 → input.data.get? (i - 1) = some c →
      (isWordChar c = true ∨ c.toNat = 96) →
      replaceMention opts value username ⟨input, i⟩ = none)
  ∧ (∀ c : Char, input.data.get? (i + value.length) = some c →
      (isWordChar c = true ∨ c.toNat = 47 ∨ c.toNat = 96) →
      replaceMention opts value username ⟨input, i⟩ = none)
  ∧ (∀ (input2 : String) (i2 : Nat),
      charAt input ((i : Int) - 1) = charAt input2 ((i2 : Int) - 1) →
      charAt input ((i : Int) + value.length) = charAt input2 ((i2 : Int) + value.length) →
      replaceMention opts value username ⟨input, i⟩
        = replaceMention opts value username ⟨input2, i2⟩) := by
  refine ⟨?_, ?_, ?_⟩
  · intro c hi hget hc
    have hA : charAt input ((i : Int) - 1) = ⟨[c]⟩ := by
      unfold charAt
      rw [if_neg (by omega), show ((i : Int) - 1).toNat = i - 1 by omega, hget]
    have hB : reTest isMentionBeforeBad (charAt input ((i : Int) - 1)) = true := by
      rw [hA]
      show (isMentionBeforeBad c || false) = true
      rcases hc with hc | hc <;> simp [isMentionBeforeBad, hc]
    unfold replaceMention
    rw [hB]
    simp
  · intro c hget hc
    have hA : charAt input ((i : Int) + value.length) = ⟨[c]⟩ := by
      unfold charAt
      rw [if_neg (by omega),
        show ((i : Int) + value.length).toNat = i + value.length by omega, hget]
    have hB : reTest isMentionAfterBad (charAt input ((i : Int) + value.length)) = true := by
      rw [hA]
      show (isMentionAfterBad c || false) = true
      rcases hc with hc | hc | hc <;> simp [isMentionAfterBad, hc]
    unfold replaceMention
    rw [hB]
    simp
  · intro input2 i2 h1 h2
    unfold replaceMention
    rw [h1, h2]

theorem c6_witness :
    replaceMention {} "@tivie" "tivie" ⟨"x@tivie", 1⟩ = none :=
  (c6_mention_boundary {} "@tivie" "tivie" "x@tivie" 1).1 'x' (by decide) (by decide)
    (Or.inl (by decide))

/-- C10 (confirmed): start-of-text acceptance.  When a mention or
reference match begins at offset 0, the preceding-character boundary
check passes — `charAt(-1)` is the empty string, which no rejection
class matches — so the match is accepted whenever the
following-character check, the denylist, and the URL builder allow it
(e.g. a text run whose entire content is `"@tivie"` is linked). -/
theorem c10_start_of_text (opts : Options) (value username input m0 user : String)
    (specificProject no hash : Option String) (u : String) :
    charAt input ((0 : Int) - 1) = ""
  ∧ (reTest isMentionAfterBad (charAt input ((0 : Int) + value.length)) = false →
      denyMention.contains username = false →
      buildUrl opts (.mention username) = some u → u ≠ "" →
      replaceMention opts value username ⟨input, 0⟩ =
        some (.link u none
          [if opts.mentionStrong ≠ some false then Node.strong [.text value] else .text value]))
  ∧ (reTest isWordChar (charAt input ((0 : Int) + m0.length)) = false →
      (if strTruthy no then buildUrl opts (.issue user specificProject (no.getD ""))
        else buildUrl opts (.commit user specificProject (hash.getD ""))) = some u →
      u ≠ "" →
      (replaceReference opts m0 user specificProject no hash ⟨input, 0⟩).isSome = true) := by
  have hneg : charAt input ((0 : Int) - 1) = "" := by
    unfold charAt
    rw [if_pos (by omega)]
  refine ⟨hneg, ?_, ?_⟩
  · intro hafter hdeny hurl hne
    unfold replaceMention
    have hBefore : reTest isMentionBeforeBad (charAt input ((0 : Int) - 1)) = false := by
      rw [hneg]; rfl
    simp only [Int.natCast_zero, hBefore, hafter, hdeny, Bool.or_self, Bool.or_false,
      Bool.false_or, if_false, Bool.false_eq_true, ite_false, hurl]
    simp [hne]
  · intro hafter hurl hne
    unfold replaceReference
    have hBefore : reTest isRefBeforeBad (charAt input ((0 : Int) - 1)) = false := by
      rw [hneg]; rfl
    simp only [Int.natCast_zero, hBefore, hafter, Bool.or_self, Bool.or_false,
      Bool.false_or, if_false, Bool.false_eq_true, ite_false]
    rw [hurl]
    simp [hne]

/-- C8 (corrected): builder suppression.  For every validated mention
or reference match: if the `buildUrl` hook returns `false` for that
match's value, no link is produced and the span stays plain text; if it
returns a non-empty string, the match is linked with exactly that
string as URL (the empty string is treated like `false` by the
truthiness test and also suppresses); and absent a hook, the default
builder is used. -/
theorem c8_builder_contract (opts : Options) (value username m0 user : String)
    (specificProject no hash : Option String) (ctx : RMatch) (u : String)
    (values : BuildUrlValues) :
    (buildUrl opts (.mention username) = none →
      replaceMention opts value username ctx = none)
  ∧ (buildUrl opts (.mention username) = some "" →
      replaceMention opts value username ctx = none)
  ∧ (reTest isMentionBeforeBad (charAt ctx.input ((ctx.index : Int) - 1)) = false →
      reTest isMentionAfterBad (charAt ctx.input ((ctx.index : Int) + value.length)) = false →
      denyMention.contains username = false →
      buildUrl opts (.mention username) = some u → u ≠ "" →
      replaceMention opts value username ctx
        = some (.link u none
            [if opts.mentionStrong ≠ some false then Node.strong [.text value]
             else .text value]))
  ∧ ((if strTruthy no then buildUrl opts (.issue user specificProject (no.getD ""))
      else buildUrl opts (.commit user specificProject (hash.getD ""))) = none →
      replaceReference opts m0 user specificProject no hash ctx = none)
  ∧ ((if strTruthy no then buildUrl opts (.issue user specificProject (no.getD ""))
      else buildUrl opts (.commit user specificProject (hash.getD ""))) = some "" →
      replaceReference opts m0 user specificProject no hash ctx = none)
  ∧ (reTest isRefBeforeBad (charAt ctx.input ((ctx.index : Int) - 1)) = false →
      reTest isWordChar (charAt ctx.input ((ctx.index : Int) + m0.length)) = false →
      (if strTruthy no then buildUrl opts (.issue user specificProject (no.getD ""))
       else buildUrl opts (.commit user specificProject (hash.getD ""))) = some u →
      u ≠ "" →
      replaceReference opts m0 user specificProject no hash ctx
        = some (.link u none
            (Node.text (if strTruthy no then "#" ++ no.getD "" else "@") ::
              (if strTruthy no then [] else [Node.inlineCode (abbr (hash.getD ""))]))))
  ∧ (opts.buildUrl = none → buildUrl opts values = some (defaultBuildUrl values)) := by
  refine ⟨?_, ?_, ?_, ?_, ?_, ?_, ?_⟩
  · intro hurl
    unfold replaceMention
    split
    · rfl
    · rw [hurl]
  · intro hurl
    unfold replaceMention
    split
    · rfl
    · rw [hurl]
      simp
  · intro hb ha hd hurl hne
    unfold replaceMention
    rw [hb, ha, hd, hurl]
    simp [hne]
  · intro hurl
    unfold replaceReference
    split
    · rfl
    · dsimp only []
      rw [hurl]
  · intro hurl
    unfold replaceReference
    split
    · rfl
    · dsimp only []
      rw [hurl]
      simp
  · intro hb ha hurl hne
    unfold replaceReference
    rw [hb, ha]
    dsimp only []
    rw [hurl]
    simp [hne]
  · intro hnone
    unfold buildUrl
    rw [hnone]

/-- C8 counterexample: the claim says matches for which the builder
returns a string are still linked, but the source tests the returned
URL with JS truthiness (`if (!url) return false`), so a hook returning
the empty string — a string — suppresses the link: with such a hook,
`replaceReference` yields no node for a valid commit match. -/
theorem c8_counterexample :
    (fun (_ : BuildUrlValues) (_ : BuildUrlValues → String) =>
        (some "" : Option String)) (BuildUrlValues.commit "wooorm" none "deadbee1")
        defaultBuildUrl = some ""
  ∧ replaceReference ⟨none, none, some fun _ _ => some ""⟩ "wooorm@deadbee1" "wooorm"
      none none (some "deadbee1") ⟨"wooorm@deadbee1", 0⟩ = none :=
  ⟨rfl, rfl⟩

theorem c8_witness :
    replaceMention ⟨none, none, some fun v d =>
        match v with
        | .mention _ => none
        | w => some (d w)⟩ "@tivie" "tivie" ⟨"@tivie", 0⟩ = none
  ∧ replaceReference ⟨none, none, some fun v d =>
        match v with
        | .mention _ => none
        | w => some (d w)⟩ "wooorm#1" "wooorm" none (some "1") none ⟨"wooorm#1", 0⟩
      = some (.link "https://github.com/wooorm//issues/1" none
          (Node.text (if strTruthy (some "1") then "#" ++ (some "1" : Option String).getD "" else "@") ::
            (if strTruthy (some "1") then []
             else [Node.inlineCode (abbr ((none : Option String).getD ""))]))) := by
  constructor
  · exact (c8_builder_contract _ "@tivie" "tivie" "" "" none none none ⟨"@tivie", 0⟩ ""
      (.mention "tivie")).1 rfl
  · exact (c8_builder_contract _ "" "" "wooorm#1" "wooorm" none (some "1") none
      ⟨"wooorm#1", 0⟩ "https://github.com/wooorm//issues/1" (.mention "x")).2.2.2.2.2.1
      (by decide) (by decide) (by rfl) (by decide)

theorem matchCI_spec :
    ∀ (pat s pre rest : List Char), matchCI pat s = some (pre, rest) →
      s = pre ++ rest ∧ List.Forall₂ ciRel pre pat := by
  intro pat
  induction pat with
  | nil =>
    intro s pre rest h
    unfold matchCI at h
    simp only [Option.some.injEq, Prod.mk.injEq] at h
    obtain ⟨rfl, rfl⟩ := h
    exact ⟨rfl, List.Forall₂.nil⟩
  | cons p ps ih =>
    intro s pre rest h
    cases s with
    | nil => exact absurd h (by simp [matchCI])
    | cons c cs =>
      unfold matchCI at h
      split at h
      · cases hm : matchCI ps cs with
        | none => rw [hm] at h; exact absurd h (by simp)
        | some pr =>
          obtain ⟨pr1, pr2⟩ := pr
          rw [hm] at h
          simp only [Option.map_some', Option.some.injEq, Prod.mk.injEq] at h
          obtain ⟨rfl, rfl⟩ := h
          obtain ⟨hs, hf⟩ := ih cs pr1 pr2 hm
          refine ⟨by rw [hs]; rfl, List.Forall₂.cons ?_ hf⟩
          rename_i hcnd
          rcases Bool.or_eq_true_iff.mp hcnd with hc | hc
          · exact Or.inl (by simpa using hc)
          · simp only [Bool.and_eq_true, decide_eq_true_eq] at hc
            exact Or.inr ⟨hc.1.1, hc.1.2, hc.2⟩
      · exact absurd h (by simp)

theorem forall2_mem_right {R : Char → Char → Prop} :
    ∀ {pre pat : List Char}, List.Forall₂ R pre pat → ∀ {p : Char}, p ∈ pat →
      ∃ c ∈ pre, R c p := by
  intro pre pat h
  induction h with
  | nil => intro p hp; exact absurd hp (List.not_mem_nil p)
  | cons hR _ ih =>
    intro p hp
    rcases List.mem_cons.mp hp with rfl | hp
    · exact ⟨_, by simp, hR⟩
    · obtain ⟨c, hc, hcR⟩ := ih hp
      exact ⟨c, List.mem_cons_of_mem _ hc, hcR⟩

theorem ciRel_colon {c : Char} (h : ciRel c ':') : c = ':' := by
  rcases h with h | h
  · exact h
  · obtain ⟨h1, h2, h3⟩ := h
    have h58 : (':' : Char).toNat = 58 := by decide
    rw [h58] at h3
    exact absurd h3 (by omega)

theorem payloadTail_chars :
    ∀ (acc r ref rest : List Char), payloadTail acc r = some (ref, rest) →
      ∀ c ∈ ref, c ∈ acc ∨ c = '/' := by
  intro acc r ref rest h c hc
  unfold payloadTail at h
  split at h
  · split at h
    · simp only [Option.some.injEq, Prod.mk.injEq] at h
      obtain ⟨rfl, rfl⟩ := h
      rcases List.mem_append.mp hc with hm | hm
      · exact Or.inl hm
      · simp only [List.mem_singleton] at hm
        exact Or.inr hm
    · exact absurd h (by simp)
  · split at h
    · simp only [Option.some.injEq, Prod.mk.injEq] at h
      obtain ⟨rfl, rfl⟩ := h
      exact Or.inl hc
    · exact absurd h (by simp)

theorem payloadMatch_chars :
    ∀ (l ref rest : List Char), payloadMatch l = some (ref, rest) →
      ∀ c ∈ ref, isHexCI c = true ∨ c = '.' ∨ c = '/' := by
  intro l ref rest h c hc
  unfold payloadMatch at h
  dsimp only [] at h
  split at h
  · exact absurd h (by simp)
  · have hhex : ∀ x ∈ l.takeWhile isHexCI, isHexCI x = true :=
      fun x hx => List.mem_takeWhile_imp hx
    split at h
    · rename_i r2 heq
      split at h
      · rcases payloadTail_chars _ _ _ _ h c hc with hm | hm
        · exact Or.inl (hhex c hm)
        · exact Or.inr (Or.inr hm)
      · split at h
        · rename_i res hres
          simp only [Option.some.injEq] at h
          subst h
          rcases payloadTail_chars _ _ _ _ hres c hc with hm | hm
          · rcases List.mem_append.mp hm with hm2 | hm2
            · exact Or.inl (hhex c hm2)
            · rcases List.mem_cons.mp hm2 with rfl | hm3
              · exact Or.inr (Or.inl rfl)
              · rcases List.mem_cons.mp hm3 with rfl | hm4
                · exact Or.inr (Or.inl rfl)
                · rcases List.mem_cons.mp hm4 with rfl | hm5
                  · exact Or.inr (Or.inl rfl)
                  · exact Or.inl (List.mem_takeWhile_imp hm5)
          · exact Or.inr (Or.inr hm)
        · rcases payloadTail_chars _ _ _ _ h c hc with hm | hm
          · exact Or.inl (hhex c hm)
          · exact Or.inr (Or.inr hm)
    · rcases payloadTail_chars _ _ _ _ h c hc with hm | hm
      · exact Or.inl (hhex c hm)
      · exact Or.inr (Or.inr hm)

theorem userScan_facts :
    ∀ (r1 user r3 : List Char), userScan r1 = some (user, r3) →
      user ≠ [] ∧ (∀ c ∈ user, isUserChar c = true) := by
  intro r1 user r3 h
  cases r1 with
  | nil => exact absurd h (by simp [userScan])
  | cons c cs =>
    unfold userScan at h
    dsimp only [] at h
    by_cases hstart : (!isUserStart c) = true
    · rw [if_pos hstart] at h
      exact absurd h (by simp)
    · rw [if_neg hstart] at h
      by_cases hlen : (List.takeWhile isUserChar (c :: cs)).length > 39
      · rw [if_pos hlen] at h
        exact absurd h (by simp)
      · rw [if_neg hlen] at h
        split at h
        · simp only [Option.some.injEq, Prod.mk.injEq] at h
          obtain ⟨rfl, rfl⟩ := h
          simp only [Bool.not_eq_true'] at hstart
          constructor
          · rw [List.takeWhile_cons_of_pos (by simp [isUserChar, hstart])]
            simp
          · intro x hx
            exact List.mem_takeWhile_imp hx
        · exact absurd h (by simp)

theorem execLinkBody_facts :
    ∀ (r1 : List Char) (m : LinkMatchR), execLinkBody r1 = some m →
      m.user.data ≠ []
    ∧ (∀ c ∈ m.user.data, isUserChar c = true)
    ∧ (∀ c ∈ m.reference.data, isHexCI c = true ∨ c = '.' ∨ c = '/') := by
  intro r1 m h
  unfold execLinkBody at h
  cases hu : userScan r1 with
  | none => rw [hu] at h; exact absurd h (by simp)
  | some ur =>
    obtain ⟨user, r3⟩ := ur
    rw [hu] at h
    dsimp only [] at h
    cases hp : projectScan r3 with
    | none => rw [hp] at h; exact absurd h (by simp)
    | some pr =>
      obtain ⟨project, r5⟩ := pr
      rw [hp] at h
      dsimp only [] at h
      cases hg : pageScan r5 with
      | none => rw [hg] at h; exact absurd h (by simp)
      | some pg =>
        obtain ⟨page, r7⟩ := pg
        rw [hg] at h
        dsimp only [] at h
        cases hm : payloadMatch r7 with
        | none => rw [hm] at h; exact absurd h (by simp)
        | some pm =>
          rw [hm] at h
          dsimp only [] at h
          simp only [Option.some.injEq] at h
          subst h
          obtain ⟨hne, hchars⟩ := userScan_facts r1 user r3 hu
          exact ⟨hne, hchars, fun c hc => payloadMatch_chars r7 pm.1 pm.2 (by rw [hm]) c hc⟩

theorem execLinkRegex_facts :
    ∀ (url : List Char) (m : LinkMatchR), execLinkRegex url = some m →
      (∃ c rest, url = c :: rest ∧ (c = 'h' ∨ c.toNat = 72))
    ∧ ':' ∈ url
    ∧ m.user.data ≠ []
    ∧ (∀ c ∈ m.user.data, isUserChar c = true)
    ∧ (∀ c ∈ m.reference.data, isHexCI c = true ∨ c = '.' ∨ c = '/') := by
  intro url m h
  unfold execLinkRegex at h
  cases h1 : matchCI "https://github.com/".data url with
  | some r =>
    rw [h1] at h
    obtain ⟨hs, hf⟩ := matchCI_spec _ _ _ _ (by rw [h1])
    refine ⟨?_, ?_, (execLinkBody_facts _ _ h).1, (execLinkBody_facts _ _ h).2.1,
      (execLinkBody_facts _ _ h).2.2⟩
    · cases hpre : r.1 with
      | nil =>
        have := List.Forall₂.length_eq hf
        rw [hpre] at this
        exact absurd this.symm (by decide)
      | cons c pre' =>
        rw [hpre] at hf hs
        cases hf with
        | cons hR _ =>
          refine ⟨c, pre' ++ r.2, by rw [hs]; rfl, ?_⟩
          rcases hR with hR | hR
          · exact Or.inl hR
          · right
            have : ('h' : Char).toNat = 104 := by decide
            omega
    · have hcol : ':' ∈ "https://github.com/".data := by decide
      obtain ⟨c, hc, hR⟩ := forall2_mem_right hf hcol
      rw [hs]
      exact List.mem_append_left _ (ciRel_colon hR ▸ hc)
  | none =>
    rw [h1] at h
    cases h2 : matchCI "http://github.com/".data url with
    | none => rw [h2] at h; exact absurd h (by simp)
    | some r =>
      rw [h2] at h
      obtain ⟨hs, hf⟩ := matchCI_spec _ _ _ _ (by rw [h2])
      refine ⟨?_, ?_, (execLinkBody_facts _ _ h).1, (execLinkBody_facts _ _ h).2.1,
        (execLinkBody_facts _ _ h).2.2⟩
      · cases hpre : r.1 with
        | nil =>
          have := List.Forall₂.length_eq hf
          rw [hpre] at this
          exact absurd this.symm (by decide)
        | cons c pre' =>
          rw [hpre] at hf hs
          cases hf with
          | cons hR _ =>
            refine ⟨c, pre' ++ r.2, by rw [hs]; rfl, ?_⟩
            rcases hR with hR | hR
            · exact Or.inl hR
            · right
              have : ('h' : Char).toNat = 104 := by decide
              omega
      · have hcol : ':' ∈ "http://github.com/".data := by decide
        obtain ⟨c, hc, hR⟩ := forall2_mem_right hf hcol
        rw [hs]
        exact List.mem_append_left _ (ciRel_colon hR ▸ hc)

theorem parse_some_inv :
    ∀ (url : String) (title : Option String) (ch : List Node) (l : ParsedLink),
      parse (.link url title ch) = some l →
      ∃ m : LinkMatchR, execLinkRegex url.data = some m
      ∧ ch = [Node.text url]
      ∧ (m.page = "commit" → 4 ≤ m.reference.length ∧ m.reference.length ≤ 40)
      ∧ (m.page = "compare" → compareOk m.reference = true)
      ∧ ((m.page = "issues" ∨ m.page = "pull") → m.reference.data.any isHexLetterCI = false)
      ∧ m.project.length < 100
      ∧ l = { user := m.user, project := m.project, page := m.page,
              reference := abbrReference m.page m.reference,
              comment := m.rest.data.head? == some '#' && decide (2 ≤ m.rest.length) } := by
  intro url title ch l h
  unfold parse at h
  dsimp only [] at h
  cases hm : execLinkRegex url.data with
  | none => rw [hm] at h; exact absurd h (by simp)
  | some m =>
    rw [hm] at h
    dsimp only [] at h
    split at h
    · exact absurd h (by simp)
    · rename_i hcond
      simp only [Option.some.injEq] at h
      simp only [Bool.or_eq_true, not_or] at hcond
      obtain ⟨⟨⟨⟨⟨⟨hA, hB⟩, hC⟩, hD⟩, hE⟩, hF⟩, hG⟩ := hcond
      have hlen : ch.length = 1 := by
        simpa using hA
      obtain ⟨x, rfl⟩ := List.length_eq_one.mp hlen
      have hx : ∃ v, x = Node.text v := by
        cases x with
        | text v => exact ⟨v, rfl⟩
        | inlineCode v => simp at hB
        | strong c2 => simp at hB
        | link a b c2 => simp at hB
        | other a c2 => simp at hB
      obtain ⟨v, rfl⟩ := hx
      have hv : v = url := by
        have h1 : mdToString (Node.link url title [Node.text v]) = url := by
          simpa using hC
        have h2 : mdToString (Node.link url title [Node.text v]) = v ++ "" := rfl
        rw [h2, String.append_empty] at h1
        exact h1
      subst hv
      refine ⟨m, rfl, rfl, ?_, ?_, ?_, ?_, h.symm⟩
      · intro hp
        rw [hp] at hD
        simp only [beq_self_eq_true, Bool.true_and, Bool.not_eq_true, Bool.or_eq_false_iff,
          decide_eq_false_iff_not, not_lt] at hD
        omega
      · intro hp
        rw [hp] at hE
        simpa using hE
      · intro hp
        rcases hp with hp | hp <;> rw [hp] at hF <;> simpa using hF
      · have := hG
        simpa using this

/-- C3 counterexample: the claim says display children are replaced
only if the commit hash length lies in [4, 40], but `linkRegex` matches
case-insensitively while the validations compare `match[3]` against the
lowercase page names case-sensitively.  A bare autolink to
`.../COMMIT/ab` (captured payload `"ab"`, length 2 < 4) therefore has
its children replaced anyway. -/
theorem c3_counterexample :
    visitLink (.link "https://github.com/aa/bb/COMMIT/ab" none
        [.text "https://github.com/aa/bb/COMMIT/ab"])
      = .link "https://github.com/aa/bb/COMMIT/ab" none [.text "aa@", .inlineCode "ab"]
  ∧ execLinkRegex "https://github.com/aa/bb/COMMIT/ab".data
      = some ⟨"aa", "bb", "COMMIT", "ab", ""⟩
  ∧ ("ab" : String).length < 4 :=
  ⟨rfl, by decide, by decide⟩

/-- C3 (corrected): Existing-Link Normalizer precondition.  A link
node's display children are replaced only if its URL matches the
literal-link pattern, the node is a bare autolink (exactly one child, a
plain-text node whose value equals the URL), and the validations hold —
where each page-specific validation applies only when the captured page
segment is exactly the lowercase `"commit"`/`"compare"`/`"issues"`/
`"pull"` (a case-insensitively matched page in other casing skips its
validation), the length checked is that of the captured payload (which
may include a trailing slash), and the project length is below 100.  In
every other case the link is left completely untouched; `visitLink` is
total, so no exception is possible. -/
theorem c3_normalizer_guard (url : String) (title : Option String) (ch : List Node) :
    visitLink (.link url title ch) = .link url title ch
  ∨ (∃ m : LinkMatchR, execLinkRegex url.data = some m
      ∧ ch = [Node.text url]
      ∧ (m.page = "commit" → 4 ≤ m.reference.length ∧ m.reference.length ≤ 40)
      ∧ (m.page = "compare" → compareOk m.reference = true)
      ∧ ((m.page = "issues" ∨ m.page = "pull") → m.reference.data.any isHexLetterCI = false)
      ∧ m.project.length < 100) := by
  cases hp : parse (.link url title ch) with
  | none =>
    left
    unfold visitLink
    rw [hp]
  | some l =>
    right
    obtain ⟨m, hm, hch, h1, h2, h3, h4, _⟩ := parse_some_inv url title ch l hp
    exact ⟨m, hm, hch, h1, h2, h3, h4⟩

theorem normalizeList_length : ∀ l : List Node, (normalizeList l).length = l.length := by
  intro l
  induction l with
  | nil => rfl
  | cons a t ih => simp [normalizeList, ih]

theorem normalizeTree_not_text :
    ∀ n : Node, (∀ v, n ≠ Node.text v) → ∀ v, normalizeTree n ≠ Node.text v := by
  intro n hn v
  cases n with
  | text w => exact absurd rfl (hn w)
  | inlineCode w => simp [normalizeTree]
  | strong c2 => simp [normalizeTree]
  | other k c2 => simp [normalizeTree]
  | link a b c2 =>
    unfold normalizeTree
    cases hp : parse (.link a b c2) <;> simp

theorem parse_none_stable (url : String) (title : Option String) (ch : List Node)
    (h : parse (.link url title ch) = none) :
    parse (.link url title (normalizeList ch)) = none := by
  by_cases hs : ∃ v, ch = [Node.text v]
  · obtain ⟨v, rfl⟩ := hs
    exact h
  · have hcond : ((normalizeList ch).length != 1
        || !(match (normalizeList ch).head? with
             | some (Node.text _) => true
             | _ => false)) = true := by
      cases ch with
      | nil => simp [normalizeList]
      | cons a t =>
        cases t with
        | cons b t2 =>
          have : (normalizeList (a :: b :: t2)).length = t2.length + 2 := by
            rw [normalizeList_length]
            simp
          simp [this]
        | nil =>
          have ha : ∀ v, a ≠ Node.text v := by
            intro v hv
            exact hs ⟨v, by rw [hv]⟩
          cases hnt : normalizeTree a with
          | text v => exact absurd hnt (normalizeTree_not_text a ha v)
          | inlineCode v => simp [normalizeList, hnt]
          | strong c2 => simp [normalizeList, hnt]
          | link a2 b2 c2 => simp [normalizeList, hnt]
          | other k c2 => simp [normalizeList, hnt]
    unfold parse
    dsimp only []
    cases hm : execLinkRegex url.data with
    | none => rfl
    | some m =>
      dsimp only []
      split
      · rfl
      · rename_i hfalse
        simp only [Bool.not_eq_true, Bool.or_eq_false_iff] at hfalse
        rw [hfalse.1.1.1.1.1.1, hfalse.1.1.1.1.1.2] at hcond
        rcases Bool.or_eq_true_iff.mp hcond with hx | hx
        · exact absurd hx (by simp [hfalse.1.1.1.1.1.1])
        · exact absurd hx (by simp [hfalse.1.1.1.1.1.2])

theorem display_value_ne_url (url : String) (m : LinkMatchR)
    (hcolon : ':' ∈ url.data)
    (huser : ∀ c ∈ m.user.data, isUserChar c = true)
    (href : ∀ c ∈ m.reference.data, isHexCI c = true ∨ c = '.' ∨ c = '/')
    (hpage : m.page = "issues" ∨ m.page = "pull")
    (cmt : String) (hcmt : cmt = "" ∨ cmt = " (comment)") :
    m.user ++ "#" ++ abbrReference m.page m.reference ++ cmt ≠ url := by
  intro he
  have hmem : (':' : Char) ∈
      (m.user ++ "#" ++ abbrReference m.page m.reference ++ cmt).data := by
    rw [he]
    exact hcolon
  rw [String.data_append, String.data_append, String.data_append] at hmem
  have habbr : abbrReference m.page m.reference = abbr m.reference := by
    unfold abbrReference
    rw [if_neg]
    rcases hpage with h2 | h2 <;> rw [h2] <;> decide
  rcases List.mem_append.mp hmem with hm1 | hm1
  · rcases List.mem_append.mp hm1 with hm2 | hm2
    · rcases List.mem_append.mp hm2 with hm3 | hm3
      · exact absurd (huser _ hm3) (by decide)
      · exact absurd hm3 (by decide)
    · rw [habbr] at hm2
      have : (':' : Char) ∈ m.reference.data := List.take_subset 7 _ hm2
      rcases href _ this with h2 | h2 | h2
      · exact absurd h2 (by decide)
      · exact absurd h2 (by decide)
      · exact absurd h2 (by decide)
  · rcases hcmt with h2 | h2 <;> rw [h2] at hm1
    · exact absurd hm1 (by decide)
    · exact absurd hm1 (by decide)

theorem parse_single_text_ne (url v : String) (title : Option String) (hne : v ≠ url) :
    parse (.link url title [.text v]) = none := by
  unfold parse
  dsimp only []
  cases hm : execLinkRegex url.data with
  | none => rfl
  | some m =>
    dsimp only []
    split
    · rfl
    · rename_i hfalse
      simp only [Bool.not_eq_true, Bool.or_eq_false_iff] at hfalse
      have hb := hfalse.1.1.1.1.2
      have hu : mdToString (Node.link url title [Node.text v]) = url := by simpa using hb
      have h2 : mdToString (Node.link url title [Node.text v]) = v ++ "" := rfl
      rw [h2, String.append_empty] at hu
      exact absurd hu hne

theorem parse_multi_children (url : String) (title : Option String) (a b : Node)
    (t : List Node) : parse (.link url title (a :: b :: t)) = none := by
  unfold parse
  dsimp only []
  cases hm : execLinkRegex url.data with
  | none => rfl
  | some m =>
    dsimp only []
    split
    · rfl
    · rename_i hfalse
      simp only [Bool.not_eq_true, Bool.or_eq_false_iff] at hfalse
      have hb := hfalse.1.1.1.1.1.1
      simp at hb

theorem parse_after_rewrite (url : String) (title : Option String) (ch : List Node)
    (l : ParsedLink) (h : parse (.link url title ch) = some l) :
    parse (.link url title (linkChildren l)) = none := by
  obtain ⟨m, hm, hch, hco, hcp, hip, hpr, hl⟩ := parse_some_inv url title ch l h
  obtain ⟨hhead, hcolon, huser_ne, huser_chars, href_chars⟩ :=
    execLinkRegex_facts url.data m hm
  subst hl
  unfold linkChildren
  dsimp only []
  by_cases hpg : (m.page == "issues" || m.page == "pull") = true
  · rw [if_pos hpg]
    have hpage : m.page = "issues" ∨ m.page = "pull" := by
      rcases Bool.or_eq_true_iff.mp hpg with h2 | h2
      · exact Or.inl (by simpa using h2)
      · exact Or.inr (by simpa using h2)
    refine parse_single_text_ne url _ title
      (display_value_ne_url url m hcolon huser_chars href_chars hpage _ ?_)
    cases hcf : (m.rest.data.head? == some '#' && decide (2 ≤ m.rest.length)) <;> simp [hcf]
  · rw [if_neg hpg]
    have huser_bne : (m.user != "") = true := by
      rw [bne_iff_ne]
      intro he
      rw [he] at huser_ne
      exact huser_ne rfl
    rw [if_pos huser_bne]
    exact parse_multi_children url title _ _ _

theorem normalizeList_linkChildren (l : ParsedLink) :
    normalizeList (linkChildren l) = linkChildren l := by
  unfold linkChildren
  dsimp only []
  split
  · rfl
  · split <;> split <;> rfl

mutual
theorem normalizeTree_idem : ∀ n : Node, normalizeTree (normalizeTree n) = normalizeTree n
  | .text _ => rfl
  | .inlineCode _ => rfl
  | .strong ch => by
    show Node.strong (normalizeList (normalizeList ch)) = Node.strong (normalizeList ch)
    rw [normalizeList_idem ch]
  | .other k ch => by
    show Node.other k (normalizeList (normalizeList ch)) = Node.other k (normalizeList ch)
    rw [normalizeList_idem ch]
  | .link url title ch => by
    cases hp : parse (.link url title ch) with
    | none =>
      have h1 : normalizeTree (.link url title ch) = .link url title (normalizeList ch) := by
        unfold normalizeTree
        rw [hp]
      rw [h1]
      unfold normalizeTree
      rw [parse_none_stable url title ch hp]
      rw [normalizeList_idem ch]
    | some l =>
      have h1 : normalizeTree (.link url title ch) = .link url title (linkChildren l) := by
        unfold normalizeTree
        rw [hp]
      rw [h1]
      unfold normalizeTree
      rw [parse_after_rewrite url title ch l hp]
      rw [normalizeList_linkChildren l]

theorem normalizeList_idem : ∀ l : List Node, normalizeList (normalizeList l) = normalizeList l
  | [] => rfl
  | n :: ns => by
    show normalizeTree (normalizeTree n) :: normalizeList (normalizeList ns)
      = normalizeTree n :: normalizeList ns
    rw [normalizeTree_idem n, normalizeList_idem ns]
end

/-- C4 (confirmed): idempotence of normalization.  Running the
Existing-Link Normalizer twice yields the same tree as running it once,
for every tree (the pass reads no configuration): after normalization
no rewritten link still has a single text child whose value equals its
URL — rewritten issue/PR links carry a colon-free display text, and
rewritten commit/compare links carry at least two children — so the
bare-autolink precondition fails for every link the first run
touched. -/
theorem c4_normalizer_idempotent (tree : Node) :
    normalizeTree (normalizeTree tree) = normalizeTree tree :=
  normalizeTree_idem tree

theorem normalizeList_append :
    ∀ a b : List Node, normalizeList (a ++ b) = normalizeList a ++ normalizeList b := by
  intro a b
  induction a with
  | nil => rfl
  | cons n t ih =>
    show normalizeTree n :: normalizeList (t ++ b) = _
    rw [ih]
    rfl

theorem parse_single_strong (u : String) (title : Option String) (ch2 : List Node) :
    parse (.link u title [.strong ch2]) = none := by
  unfold parse
  dsimp only []
  cases hm : execLinkRegex u.data with
  | none => rfl
  | some m =>
    dsimp only []
    split
    · rfl
    · rename_i hfalse
      simp only [Bool.not_eq_true, Bool.or_eq_false_iff] at hfalse
      have hb := hfalse.1.1.1.1.1.2
      simp at hb

theorem parse_single_text_special (u v : String) (title : Option String)
    (hv : ∃ t c0, v.data = c0 :: t ∧ (c0 = '@' ∨ c0 = '#')) :
    parse (.link u title [.text v]) = none := by
  obtain ⟨t, c0, hvd, hc0⟩ := hv
  cases hm : execLinkRegex u.data with
  | none =>
    unfold parse
    dsimp only []
    rw [hm]
  | some m =>
    obtain ⟨⟨ch, hrest, hud, hch⟩, _, _, _, _⟩ := execLinkRegex_facts u.data m hm
    refine parse_single_text_ne u v title ?_
    intro he
    rw [he, hud] at hvd
    have hc : ch = c0 := (List.cons.injEq _ _ _ _ ▸ hvd).1
    subst hc
    rcases hc0 with rfl | rfl
    · rcases hch with hch | hch
      · exact absurd hch (by decide)
      · exact absurd hch (by decide)
    · rcases hch with hch | hch
      · exact absurd hch (by decide)
      · exact absurd hch (by decide)

theorem menAttempt_at (l : List Char) (m : MenMatch) (h : menAttempt l = some m) :
    ∃ t, m.m0 = '@' :: t := by
  unfold menAttempt at h
  split at h
  · cases hu : menUserScan _ with
    | none => rw [hu] at h; exact absurd h (by simp)
    | some u =>
      rw [hu] at h
      simp only [Option.map_some', Option.some.injEq] at h
      subst h
      exact ⟨u, rfl⟩
  · exact absurd h (by simp)

theorem scanAllAux_mem_prop {M : Type} (attempt : List Char → Option M) (mlen : M → Nat)
    (P : M → Prop) (hP : ∀ l m, attempt l = some m → P m) :
    ∀ (fuel i : Nat) (l : List Char) (p : Nat × M),
      p ∈ scanAllAux attempt mlen fuel i l → P p.2 := by
  intro fuel
  induction fuel with
  | zero =>
    intro i l p hp
    exact absurd hp (by simp [scanAllAux])
  | succ fuel ih =>
    intro i l p hp
    cases l with
    | nil => exact absurd hp (by simp [scanAllAux])
    | cons c rest =>
      unfold scanAllAux at hp
      cases ha : attempt (c :: rest) with
      | some m =>
        rw [ha] at hp
        dsimp only [] at hp
        rcases List.mem_cons.mp hp with rfl | hp2
        · exact hP _ _ ha
        · exact ih _ _ _ hp2
      | none =>
        rw [ha] at hp
        dsimp only [] at hp
        exact ih _ _ _ hp

theorem replaceMention_node_inv (opts : Options) (value username : String) (ctx : RMatch)
    (nd : Node) (h : replaceMention opts value username ctx = some nd)
    (hval : ∃ t, value.data = '@' :: t) :
    normalizeTree nd = nd := by
  unfold replaceMention at h
  split at h
  · exact absurd h (by simp)
  · cases hurl : buildUrl opts (.mention username) with
    | none => rw [hurl] at h; exact absurd h (by simp)
    | some u =>
      rw [hurl] at h
      dsimp only [] at h
      split at h
      · exact absurd h (by simp)
      · by_cases hms : opts.mentionStrong ≠ some false
        · rw [if_pos hms] at h
          simp only [Option.some.injEq] at h
          subst h
          unfold normalizeTree
          rw [parse_single_strong u none [Node.text value]]
          rfl
        · rw [if_neg hms] at h
          simp only [Option.some.injEq] at h
          subst h
          unfold normalizeTree
          rw [parse_single_text_special u value none
            (by obtain ⟨t, ht⟩ := hval; exact ⟨t, '@', ht, Or.inl rfl⟩)]
          rfl

theorem replaceReference_node_inv (opts : Options) (m0 user : String)
    (specificProject no hash : Option String) (ctx : RMatch) (nd : Node)
    (h : replaceReference opts m0 user specificProject no hash ctx = some nd) :
    normalizeTree nd = nd := by
  unfold replaceReference at h
  split at h
  · exact absurd h (by simp)
  · rcases hno : strTruthy no with _ | _ <;>
      simp only [hno, Bool.false_eq_true, if_true, if_false] at h
    · cases hurl : buildUrl opts (.commit user specificProject (hash.getD "")) with
      | none => rw [hurl] at h; exact absurd h (by simp)
      | some u =>
        rw [hurl] at h
        dsimp only [] at h
        split at h
        · exact absurd h (by simp)
        · simp only [Option.some.injEq] at h
          subst h
          unfold normalizeTree
          rw [parse_multi_children u none _ _ _]
          rfl
    · cases hurl : buildUrl opts (.issue user specificProject (no.getD "")) with
      | none => rw [hurl] at h; exact absurd h (by simp)
      | some u =>
        rw [hurl] at h
        dsimp only [] at h
        split at h
        · exact absurd h (by simp)
        · simp only [Option.some.injEq] at h
          subst h
          unfold normalizeTree
          rw [parse_single_text_special u ("#" ++ no.getD "") none
            ⟨(no.getD "").data, '#', by rw [String.data_append]; rfl, Or.inr rfl⟩]
          rfl

theorem buildSegments_inv {M : Type} (mlen : M → Nat) (repl : Nat → M → Option Node)
    (v : List Char) :
    ∀ (ms : List (Nat × M)) (start : Nat),
      (∀ p ∈ ms, ∀ nd, repl p.1 p.2 = some nd → normalizeTree nd = nd) →
      normalizeList (buildSegments mlen repl v ms start).1
        = (buildSegments mlen repl v ms start).1 := by
  intro ms
  induction ms with
  | nil => intro start _; rfl
  | cons p rest ih =>
    intro start hrepl
    obtain ⟨i, m⟩ := p
    unfold buildSegments
    dsimp only []
    cases hr : repl i m with
    | none => exact ih start fun q hq => hrepl q (List.mem_cons_of_mem _ hq)
    | some nd =>
      dsimp only []
      rw [normalizeList_append]
      have h1 : normalizeList
          (if start ≠ i then [Node.text ⟨(v.drop start).take (i - start)⟩] else [])
          = (if start ≠ i then [Node.text ⟨(v.drop start).take (i - start)⟩] else []) := by
        split <;> rfl
      rw [h1]
      congr 1
      show normalizeTree nd :: normalizeList (buildSegments mlen repl v rest (i + mlen m)).1
        = nd :: (buildSegments mlen repl v rest (i + mlen m)).1
      rw [hrepl (i, m) (List.mem_cons_self _ _) nd hr,
        ih _ fun q hq => hrepl q (List.mem_cons_of_mem _ hq)]

theorem handleText_inv {M : Type} (attempt : List Char → Option M) (mlen : M → Nat)
    (repl : Nat → M → Option Node) (v : List Char)
    (hrepl : ∀ p ∈ scanAll attempt mlen v, ∀ nd, repl p.1 p.2 = some nd →
      normalizeTree nd = nd) :
    normalizeList (handleText attempt mlen repl v) = handleText attempt mlen repl v := by
  unfold handleText
  dsimp only []
  split
  · rfl
  · rw [normalizeList_append, buildSegments_inv mlen repl v _ 0 hrepl]
    congr 1
    split <;> rfl

theorem refHandle_inv (opts : Options) (v : List Char) :
    normalizeList (refHandle opts v) = refHandle opts v :=
  handleText_inv _ _ _ v fun p _ nd h =>
    replaceReference_node_inv opts ⟨p.2.m0⟩ ⟨p.2.user⟩ (p.2.project.map (⟨·⟩))
      (p.2.no.map (⟨·⟩)) (p.2.hash.map (⟨·⟩)) ⟨⟨v⟩, p.1⟩ nd h

theorem menHandle_inv (opts : Options) (v : List Char) :
    normalizeList (menHandle opts v) = menHandle opts v := by
  apply handleText_inv
  intro p hp nd h
  have hat : ∃ t, p.2.m0 = '@' :: t :=
    scanAllAux_mem_prop menAttempt (fun m => m.m0.length) (fun m => ∃ t, m.m0 = '@' :: t)
      (fun l m hl => menAttempt_at l m hl) _ _ _ p hp
  obtain ⟨t, ht⟩ := hat
  exact replaceMention_node_inv opts ⟨p.2.m0⟩ ⟨p.2.username⟩ ⟨⟨v⟩, p.1⟩ nd h
    ⟨t, by show p.2.m0 = _; rw [ht]⟩

mutual
theorem scanPassNorm (f : List Char → List Node)
    (hf : ∀ v, normalizeList (f v) = f v) :
    ∀ n : Node, normalizeTree (scanPass f n) = scanPass f (normalizeTree n)
  | .text _ => rfl
  | .inlineCode _ => rfl
  | .strong ch => by
    show Node.strong (normalizeList (scanChildren f ch))
      = Node.strong (scanChildren f (normalizeList ch))
    rw [scanChildrenNorm f hf ch]
  | .link u t ch => by
    show normalizeTree (.link u t ch) = scanPass f (normalizeTree (.link u t ch))
    cases hp : parse (.link u t ch) with
    | none =>
      have h1 : normalizeTree (.link u t ch) = .link u t (normalizeList ch) := by
        unfold normalizeTree
        rw [hp]
      rw [h1]
      rfl
    | some l =>
      have h1 : normalizeTree (.link u t ch) = .link u t (linkChildren l) := by
        unfold normalizeTree
        rw [hp]
      rw [h1]
      rfl
  | .other k ch => by
    by_cases hk : k = "linkReference"
    · show normalizeTree (if k = "linkReference" then Node.other k ch
          else .other k (scanChildren f ch))
        = scanPass f (.other k (normalizeList ch))
      rw [if_pos hk]
      show Node.other k (normalizeList ch)
        = if k = "linkReference" then Node.other k (normalizeList ch)
          else .other k (scanChildren f (normalizeList ch))
      rw [if_pos hk]
    · show normalizeTree (if k = "linkReference" then Node.other k ch
          else .other k (scanChildren f ch))
        = scanPass f (.other k (normalizeList ch))
      rw [if_neg hk]
      show Node.other k (normalizeList (scanChildren f ch))
        = if k = "linkReference" then Node.other k (normalizeList ch)
          else .other k (scanChildren f (normalizeList ch))
      rw [if_neg hk, scanChildrenNorm f hf ch]

theorem scanNodeNorm (f : List Char → List Node)
    (hf : ∀ v, normalizeList (f v) = f v) :
    ∀ n : Node, normalizeList (scanNode f n) = scanNode f (normalizeTree n)
  | .text v => hf v.data
  | .inlineCode _ => rfl
  | .strong ch => by
    show [Node.strong (normalizeList (scanChildren f ch))]
      = [Node.strong (scanChildren f (normalizeList ch))]
    rw [scanChildrenNorm f hf ch]
  | .link u t ch => by
    show [normalizeTree (.link u t ch)] = scanNode f (normalizeTree (.link u t ch))
    cases hp : parse (.link u t ch) with
    | none =>
      have h1 : normalizeTree (.link u t ch) = .link u t (normalizeList ch) := by
        unfold normalizeTree
        rw [hp]
      rw [h1]
      rfl
    | some l =>
      have h1 : normalizeTree (.link u t ch) = .link u t (linkChildren l) := by
        unfold normalizeTree
        rw [hp]
      rw [h1]
      rfl
  | .other k ch => by
    by_cases hk : k = "linkReference"
    · show normalizeList [if k = "linkReference" then Node.other k ch
          else .other k (scanChildren f ch)]
        = scanNode f (.other k (normalizeList ch))
      rw [if_pos hk]
      show [Node.other k (normalizeList ch)]
        = [if k = "linkReference" then Node.other k (normalizeList ch)
           else .other k (scanChildren f (normalizeList ch))]
      rw [if_pos hk]
    · show normalizeList [if k = "linkReference" then Node.other k ch
          else .other k (scanChildren f ch)]
        = scanNode f (.other k (normalizeList ch))
      rw [if_neg hk]
      show [Node.other k (normalizeList (scanChildren f ch))]
        = [if k = "linkReference" then Node.other k (normalizeList ch)
           else .other k (scanChildren f (normalizeList ch))]
      rw [if_neg hk, scanChildrenNorm f hf ch]

theorem scanChildrenNorm (f : List Char → List Node)
    (hf : ∀ v, normalizeList (f v) = f v) :
    ∀ l : List Node, normalizeList (scanChildren f l) = scanChildren f (normalizeList l)
  | [] => rfl
  | n :: rest => by
    show normalizeList (scanNode f n ++ scanChildren f rest)
      = scanNode f (normalizeTree n) ++ scanChildren f (normalizeList rest)
    rw [normalizeList_append, scanNodeNorm f hf n, scanChildrenNorm f hf rest]
end

/-- C7 (confirmed): pass order-independence.  For every input tree and
configuration, running the Text Scanner (`scanTree`, the two
find-and-replace sub-passes) and then the Existing-Link Normalizer
(`normalizeTree`) produces the same tree as running them in the
opposite order.  In particular link nodes freshly produced by the
scanner are never further altered by the normalizer: their display text
starts with `"@"` or `"#"` while any URL the literal-link pattern
accepts starts with `h`/`H`, or their children shape already fails the
bare-autolink check. -/
theorem c7_pass_commutation (opts : Options) (tree : Node) :
    normalizeTree (scanTree opts tree) = scanTree opts (normalizeTree tree) := by
  unfold scanTree
  rw [scanPassNorm (menHandle opts) (menHandle_inv opts) (scanPass (refHandle opts) tree),
    scanPassNorm (refHandle opts) (refHandle_inv opts) tree]

/-- C9 (confirmed): noninterference of the `repository` option.  Two
configurations that differ only in the `repository` field produce
identical output trees under the whole transform — no code path of the
scanner or normalizer reads the option. -/
theorem c9_repository_noninterference (o1 o2 : Options) (tree : Node)
    (hms : o1.mentionStrong = o2.mentionStrong) (hbu : o1.buildUrl = o2.buildUrl) :
    transform o1 tree = transform o2 tree := by
  have hurl : ∀ v, buildUrl o1 v = buildUrl o2 v := by
    intro v
    unfold buildUrl
    rw [hbu]
  have hmen : ∀ value username ctx,
      replaceMention o1 value username ctx = replaceMention o2 value username ctx := by
    intro value username ctx
    unfold replaceMention
    simp only [hurl, hms]
  have href : ∀ m0 user sp no hash ctx,
      replaceReference o1 m0 user sp no hash ctx
        = replaceReference o2 m0 user sp no hash ctx := by
    intro m0 user sp no hash ctx
    unfold replaceReference
    simp only [hurl]
  have hrh : refHandle o1 = refHandle o2 := by
    funext v
    unfold refHandle
    have : refReplace o1 ⟨v⟩ = refReplace o2 ⟨v⟩ := by
      funext i m
      unfold refReplace
      rw [href]
    rw [this]
  have hmh : menHandle o1 = menHandle o2 := by
    funext v
    unfold menHandle
    have : menReplace o1 ⟨v⟩ = menReplace o2 ⟨v⟩ := by
      funext i m
      unfold menReplace
      rw [hmen]
    rw [this]
  unfold transform scanTree
  rw [hrh, hmh]

theorem c9_witness :
    transform ⟨some "wooorm/remark", none, none⟩ (.other "root" [.text "hello @tivie"])
      = transform ⟨none, none, none⟩ (.other "root" [.text "hello @tivie"]) :=
  c9_repository_noninterference ⟨some "wooorm/remark", none, none⟩ ⟨none, none, none⟩
    (.other "root" [.text "hello @tivie"]) rfl rfl

theorem c1_witness :
    (abbr "0123456789abcdef").data
        = "0123456789abcdef".data.take (min 7 "0123456789abcdef".data.length)
  ∧ (abbr "0123456789abcdef").length = 7
  ∧ abbr "abc" = "abc"
  ∧ abbrReference "compare" "abcd...ef01" = abbr "abcd" ++ "..." ++ abbr "ef01" := by
  refine ⟨(c1_abbreviation_law "0123456789abcdef").1,
    (c1_abbreviation_law "0123456789abcdef").2.1 (by decide),
    (c1_abbreviation_law "abc").2.2.1 (by decide),
    (c1_abbreviation_law "x").2.2.2 "abcd...ef01" "abcd" "ef01" (by decide)⟩

theorem c10_witness :
    charAt "@tivie" ((0 : Int) - 1) = ""
  ∧ replaceMention {} "@tivie" "tivie" ⟨"@tivie", 0⟩
      = some (.link "https://github.com/tivie" none
          [if ({} : Options).mentionStrong ≠ some false then Node.strong [.text "@tivie"]
           else .text "@tivie"])
  ∧ (replaceReference {} "wooorm#1" "wooorm" none (some "1") none
      ⟨"wooorm#1", 0⟩).isSome = true := by
  refine ⟨(c10_start_of_text {} "@tivie" "tivie" "@tivie" "" "" none none none "").1, ?_, ?_⟩
  · exact (c10_start_of_text {} "@tivie" "tivie" "@tivie" "" "" none none none
      "https://github.com/tivie").2.1 (by decide) (by decide) (by rfl) (by decide)
  · exact (c10_start_of_text {} "" "" "wooorm#1" "wooorm#1" "wooorm" none (some "1") none
      "https://github.com/wooorm//issues/1").2.2 (by decide) (by rfl) (by decide)
